import Mathlib

/-!
Verification of the transaction-construction and -signing pipeline of
`avail-rust-light` (`src/client/http.rs`).

Byte sequences are modelled as `List Nat`, where every emitted value is
below 256.  Machine integers (`u32`, `u64`, `u128`) are modelled as `Nat`;
the source never relies on wrapping arithmetic in the fragment verified
here.  Chain state reached over RPC is modelled by a `Chain` oracle, and
every RPC issued by the client is recorded in a query trace, so that
claims about which queries are issued become statements about the trace.
-/

namespace Avail

abbrev Bytes := List Nat

/-! ### Little-endian byte strings and the SCALE compact integer encoding

`parity_scale_codec` is an external dependency of the crate; its `Compact`
and fixed-width encodings are reproduced here from the SCALE format the
spec calls "canonical compact variable-length encoding" / "raw fixed-width
bytes". -/

/-- Little-endian byte string of fixed width `k` for the value `m`. -/
def leBytes : Nat → Nat → Bytes
  | 0, _ => []
  | k + 1, m => m % 256 :: leBytes k (m / 256)

/-- Read back a little-endian byte string as a natural number. -/
def fromLE : Bytes → Nat
  | [] => 0
  | b :: rest => b + 256 * fromLE rest

/-- Number of bytes in the minimal little-endian representation of `n`. -/
def byteLen (n : Nat) : Nat := Nat.log 256 n + 1

/-- SCALE compact encoding of an unsigned integer: two low mode bits select
single-byte, two-byte, four-byte or big-integer mode. -/
def compactEncode (n : Nat) : Bytes :=
  if n < 64 then [4 * n]
  else if n < 16384 then leBytes 2 (4 * n + 1)
  else if n < 1073741824 then leBytes 4 (4 * n + 2)
  else (4 * (byteLen n - 4) + 3) :: leBytes (byteLen n) n

/-- SCALE compact decoding: returns the decoded value and the unconsumed
remainder of the input. -/
def compactDecode : Bytes → Option (Nat × Bytes)
  | [] => none
  | b :: rest =>
    if b % 4 = 0 then some (b / 4, rest)
    else if b % 4 = 1 then
      match rest with
      | b2 :: rest2 => some ((b + 256 * b2) / 4, rest2)
      | [] => none
    else if b % 4 = 2 then
      match rest with
      | b2 :: b3 :: b4 :: rest4 =>
          some ((b + 256 * b2 + 65536 * b3 + 16777216 * b4) / 4, rest4)
      | _ => none
    else
      let k := b / 4 + 4
      if k ≤ rest.length then some (fromLE (rest.take k), rest.drop k) else none

/-! ### Basic lemmas about the encoders -/

theorem leBytes_length (k m : Nat) : (leBytes k m).length = k := by
  induction k generalizing m with
  | zero => rfl
  | succ k ih => simp [leBytes, ih]

theorem mod_mul_decomp (m a b : Nat) (ha : 0 < a) (hb : 0 < b) :
    m % (a * b) = m % a + a * (m / a % b) := by
  have h1 : a * (m / a) + m % a = m := Nat.div_add_mod m a
  have h2 : b * (m / a / b) + m / a % b = m / a := Nat.div_add_mod (m / a) b
  have hm : m = a * b * (m / a / b) + (a * (m / a % b) + m % a) := by
    calc m = a * (m / a) + m % a := h1.symm
    _ = a * (b * (m / a / b) + m / a % b) + m % a := by rw [h2]
    _ = a * b * (m / a / b) + (a * (m / a % b) + m % a) := by ring
  have hlt : a * (m / a % b) + m % a < a * b := by
    have hma : m % a < a := Nat.mod_lt _ ha
    have hmb : m / a % b < b := Nat.mod_lt _ hb
    have : a * (m / a % b) ≤ a * (b - 1) := Nat.mul_le_mul_left a (by omega)
    have hab : a * (b - 1) + a = a * b := by
      have : a * (b - 1) + a = a * (b - 1 + 1) := by ring
      rw [this, Nat.sub_add_cancel hb]
    omega
  conv_lhs => rw [hm]
  rw [Nat.mul_add_mod, Nat.mod_eq_of_lt hlt]
  ring

theorem fromLE_leBytes (k m : Nat) : fromLE (leBytes k m) = m % 256 ^ k := by
  induction k generalizing m with
  | zero => simp [leBytes, fromLE, Nat.mod_one]
  | succ k ih =>
    simp only [leBytes, fromLE, ih]
    rw [pow_succ']
    exact (mod_mul_decomp m 256 (256 ^ k) (by norm_num) (Nat.pos_pow_of_pos _ (by norm_num))).symm

theorem leBytes_two (m : Nat) : leBytes 2 m = [m % 256, m / 256 % 256] := rfl

theorem leBytes_four (m : Nat) :
    leBytes 4 m =
      [m % 256, m / 256 % 256, m / 256 / 256 % 256, m / 256 / 256 / 256 % 256] := rfl

theorem byteLen_eq_four (n : Nat) (h1 : 1073741824 ≤ n) (h2 : n < 4294967296) :
    byteLen n = 4 := by
  have : Nat.log 256 n = 3 :=
    Nat.log_eq_of_pow_le_of_lt_pow (by norm_num; omega) (by norm_num; omega)
  simp [byteLen, this]

/-- Round trip of the compact encoding for values below `2 ^ 32`: decoding an
encoded value consumes exactly its bytes and returns the rest untouched. -/
theorem compactDecode_compactEncode (n : Nat) (hn : n < 4294967296) (tail : Bytes) :
    compactDecode (compactEncode n ++ tail) = some (n, tail) := by
  by_cases h1 : n < 64
  · simp only [compactEncode, if_pos h1, List.cons_append, List.nil_append, compactDecode]
    rw [if_pos (by omega)]
    simp
  · by_cases h2 : n < 16384
    · simp only [compactEncode, if_neg h1, if_pos h2, leBytes_two, List.cons_append,
        List.nil_append, compactDecode]
      rw [if_neg (by omega), if_pos (by omega)]
      simp
      omega
    · by_cases h3 : n < 1073741824
      · simp only [compactEncode, if_neg h1, if_neg h2, if_pos h3, leBytes_four,
          List.cons_append, List.nil_append, compactDecode]
        rw [if_neg (by omega), if_neg (by omega), if_pos (by omega)]
        simp
        omega
      · simp only [compactEncode, if_neg h1, if_neg h2, if_neg h3,
          byteLen_eq_four n (by omega) hn, leBytes_four, List.cons_append,
          List.nil_append, compactDecode]
        rw [if_neg (by norm_num), if_neg (by norm_num), if_neg (by norm_num)]
        simp only [List.length_cons]
        rw [if_pos (by omega)]
        simp only [List.take, List.drop, fromLE]
        norm_num
        omega

/-! ### Mortality

`CheckedMortality::mortal` lives in the crate's `transaction` module, which is
not part of the sources at hand; it is modelled from the spec. -/

/-- Fuel-driven helper computing the number of binary digits of `n`;
structurally recursive so that closed instances reduce in the kernel. -/
def bitLenAux : Nat → Nat → Nat
  | 0, _ => 0
  | fuel + 1, n => if n = 0 then 0 else bitLenAux fuel (n / 2) + 1

/-- Number of binary digits of `n` (0 for 0). -/
def bitLen (n : Nat) : Nat := bitLenAux n n

theorem bitLenAux_zero (fuel : Nat) : bitLenAux fuel 0 = 0 := by
  cases fuel <;> rfl

theorem bitLenAux_congr (fuel₁ fuel₂ n : Nat) (h₁ : n ≤ fuel₁) (h₂ : n ≤ fuel₂) :
    bitLenAux fuel₁ n = bitLenAux fuel₂ n := by
  induction fuel₁ generalizing fuel₂ n with
  | zero =>
    have : n = 0 := by omega
    simp [this, bitLenAux_zero, bitLenAux]
  | succ fuel ih =>
    cases fuel₂ with
    | zero =>
      have : n = 0 := by omega
      simp [this, bitLenAux_zero]
    | succ fuel' =>
      by_cases hn : n = 0
      · simp [hn, bitLenAux]
      · simp only [bitLenAux, if_neg hn]
        have hd : n / 2 < n := Nat.div_lt_self (by omega) (by omega)
        rw [ih fuel' (n / 2) (by omega) (by omega)]

theorem lt_two_pow_bitLenAux (fuel n : Nat) (h : n ≤ fuel) : n < 2 ^ bitLenAux fuel n := by
  induction fuel generalizing n with
  | zero =>
    have : n = 0 := by omega
    simp [this, bitLenAux]
  | succ fuel ih =>
    by_cases hn : n = 0
    · simp [hn, bitLenAux]
    · simp only [bitLenAux, if_neg hn]
      have hd : n / 2 < n := Nat.div_lt_self (by omega) (by omega)
      have := ih (n / 2) (by omega)
      rw [pow_succ]
      omega

theorem two_pow_bitLenAux_le (fuel n : Nat) (h1 : 1 ≤ n) (h : n ≤ fuel) :
    2 ^ bitLenAux fuel n ≤ 2 * n := by
  induction fuel generalizing n with
  | zero => omega
  | succ fuel ih =>
    have hn : n ≠ 0 := by omega
    simp only [bitLenAux, if_neg hn]
    by_cases h1' : n = 1
    · simp [h1', bitLenAux_zero]
    · have hd1 : 1 ≤ n / 2 := by omega
      have hd : n / 2 < n := Nat.div_lt_self (by omega) (by omega)
      have := ih (n / 2) hd1 (by omega)
      rw [pow_succ]
      omega

theorem lt_two_pow_bitLen (n : Nat) : n < 2 ^ bitLen n :=
  lt_two_pow_bitLenAux n n le_rfl

theorem two_pow_bitLen_le (n : Nat) (h : 1 ≤ n) : 2 ^ bitLen n ≤ 2 * n :=
  two_pow_bitLenAux_le n n h le_rfl

/-- Modelled from the spec: smallest power of two that is at least `n`
("canonical mortality periods are powers of two"). -/
def nextPow2 (n : Nat) : Nat :=
  if n ≤ 1 then 1 else 2 ^ bitLen (n - 1)

/-- Modelled from the spec: the resolved mortality period for a requested
length, "the smallest power of two ≥ max(length, 4) and ≤ 2^16", clamped to
the maximum representable period instead of failing. -/
def mortalPeriod (len : Nat) : Nat :=
  min (2 ^ 16) (nextPow2 (max len 4))

/-- A checked mortality window: a period and a phase. -/
structure CheckedMortality where
  period : Nat
  phase : Nat
deriving DecidableEq, Repr

/-- Modelled from the spec: normalize the requested length to a canonical
period and "compute `phase = height % period`". -/
def CheckedMortality.mortal (len current : Nat) : CheckedMortality :=
  ⟨mortalPeriod len, current % mortalPeriod len⟩

/-- Modelled from the spec: the mortality window is emitted as a two-byte
(period, phase) code, following the standard era encoding of the ecosystem
the crate targets. -/
def CheckedMortality.encode (m : CheckedMortality) : Bytes :=
  let quantize_factor := max (m.period / 4096) 1
  leBytes 2 (min 15 (max 1 (bitLen m.period - 1 - 1)) + 16 * (m.phase / quantize_factor))

/-! ### Transaction data model (from `crate::transaction`, used by `http.rs`) -/

/-- Nonce resolution policy (`transaction::Nonce`). -/
inductive Nonce where
  | BestBlockAndTxPool
  | BestBlock
  | FinalizedBlock
  | Custom (n : Nat)
deriving DecidableEq, Repr

/-- Mortality policy (`transaction::Mortality`): a period anchored at the
current best block, or an explicit (period, anchor height, anchor hash). -/
inductive Mortality where
  | Period (period : Nat)
  | Custom (period : Nat) (best_number : Nat) (block_hash : Bytes)
deriving DecidableEq, Repr

/-- Caller-supplied optional overrides (`transaction::ExtrinsicExtra`). -/
structure ExtrinsicExtra where
  nonce : Option Nonce
  mortality : Option Mortality
  tip : Option Nat
  app_id : Option Nat
deriving DecidableEq, Repr

/-- Mirror of `ExtrinsicExtra::deconstruct` in the source. -/
def ExtrinsicExtra.deconstruct (ee : ExtrinsicExtra) :
    Option Nonce × Option Mortality × Option Nat × Option Nat :=
  (ee.nonce, ee.mortality, ee.tip, ee.app_id)

/-- The resolved extra (`transaction::Extra`): mortality, nonce, tip, app id. -/
structure Extra where
  mortality : CheckedMortality
  nonce : Nat
  tip : Nat
  app_id : Nat
deriving DecidableEq, Repr

/-- Modelled from the spec: the extra encodes as mortality, then nonce, tip
and app id as compact integers, in this exact order. -/
def Extra.encode (e : Extra) : Bytes :=
  e.mortality.encode ++ compactEncode e.nonce ++ compactEncode e.tip
    ++ compactEncode e.app_id

/-- The additional signing material (`transaction::Additional`). -/
structure Additional where
  spec_version : Nat
  transaction_version : Nat
  genesis_hash : Bytes
  fork_hash : Bytes
deriving DecidableEq, Repr

/-- Modelled from the spec: spec version and transaction version as raw
fixed-width (4-byte) integers, then the genesis hash and the fork hash as
raw bytes, in this exact order. -/
def Additional.encode (a : Additional) : Bytes :=
  leBytes 4 a.spec_version ++ leBytes 4 a.transaction_version
    ++ a.genesis_hash ++ a.fork_hash

/-- The encoded unsigned payload (`transaction::UnsignedEncodedPayload`):
the already-encoded call, extra and additional byte segments, as accessed
by `Client::sign` through `payload.extra` / `payload.call`. -/
structure UnsignedEncodedPayload where
  call : Bytes
  extra : Bytes
  additional : Bytes
deriving DecidableEq, Repr

/-- The full signing bytes: call, then extra, then additional. -/
def UnsignedEncodedPayload.full (p : UnsignedEncodedPayload) : Bytes :=
  p.call ++ p.extra ++ p.additional

/-- Mirror of `UnsignedPayload::new(call, extra, additional).encode()`. -/
def UnsignedPayload.encode (call : Bytes) (extra : Extra) (additional : Additional) :
    UnsignedEncodedPayload :=
  ⟨call, extra.encode, additional.encode⟩

/-- Modelled from the spec: the account id derived from a public key by the
Signer capability (opaque; for the one supported scheme the account id is
the 32 public-key bytes themselves). -/
def PublicKey.to_account_id (pk : Bytes) : Bytes := pk

/-- Tagged-union encoding of `MultiAddress::Id`: discriminant byte 0 followed
by the raw account id bytes. -/
def MultiAddress.encodeId (account_id : Bytes) : Bytes := 0 :: account_id

/-- Tagged-union encoding of `MultiSignature::Sr25519`: discriminant byte 1
followed by the raw 64 signature bytes. -/
def MultiSignature.encodeSr25519 (sig : Bytes) : Bytes := 1 :: sig

/-! ### The chain oracle and the query trace -/

/-- Chain state as observable through the RPC interface used by the client. -/
structure Chain where
  bestBlockHash : Bytes
  finalizedBlockHash : Bytes
  genesisHash : Bytes
  headerNumber : Bytes → Nat
  accountNextIndex : Bytes → Nat
  accountNonceAt : Bytes → Bytes → Nat
  specVersion : Nat
  transactionVersion : Nat

/-- One RPC issued by the client, with the arguments that identify it. -/
inductive Query where
  | systemAccountNextIndex (account_id : Bytes)
  | chainGetBlockHash
  | chainGetFinalizedHead
  | chainGetHeader (hash : Bytes)
  | chainSpecV1GenesisHash
  | stateGetRuntimeVersion
  | stateCallAccountNonce (account_id : Bytes) (block_hash : Bytes)
deriving DecidableEq, Repr

namespace Client

/-- Mirror of the nonce `match` in `Client::build_payload` (lines 46-61):
the resolved nonce value together with the RPCs issued to obtain it. -/
def resolveNonce (c : Chain) (account_id : Bytes) : Option Nonce → Nat × List Query
  | some .BestBlockAndTxPool | none =>
      (c.accountNextIndex account_id, [.systemAccountNextIndex account_id])
  | some .BestBlock =>
      let block_hash := c.bestBlockHash
      (c.accountNonceAt account_id block_hash,
        [.chainGetBlockHash, .stateCallAccountNonce account_id block_hash])
  | some .FinalizedBlock =>
      let block_hash := c.finalizedBlockHash
      (c.accountNonceAt account_id block_hash,
        [.chainGetFinalizedHead, .stateCallAccountNonce account_id block_hash])
  | some (.Custom n) => (n, [])

/-- Mirror of the mortality `match` in `Client::build_payload` (lines 76-90):
given the prefetched best block number and hash, produce the checked
mortality and the fork hash.  No arm issues an RPC. -/
def resolveMortality (mortality : Option Mortality) (best_block_number : Nat)
    (best_block_hash : Bytes) : CheckedMortality × Bytes :=
  match mortality with
  | some (.Period period) =>
      (CheckedMortality.mortal period best_block_number, best_block_hash)
  | some (.Custom period best_number block_hash) =>
      (CheckedMortality.mortal period best_number, block_hash)
  | none => (CheckedMortality.mortal 32 best_block_number, best_block_hash)

end Client

/-- Translation of `Client::build_payload` (`http.rs` lines 28-108): resolve
nonce, tip, app id and mortality, fetch the chain-derived signing material,
and assemble the encoded unsigned payload.  The second component is the
sequence of RPCs issued, in program order: the nonce-resolution queries,
then genesis hash, best block hash, the best block's header, and the
runtime version. -/
def Client.build_payload (c : Chain) (call : Bytes) (account_id : Bytes)
    (extrinsic_extra : ExtrinsicExtra) : UnsignedEncodedPayload × List Query :=
  let (nonceQ, mortalityQ, tipQ, app_idQ) := extrinsic_extra.deconstruct
  let nr := Client.resolveNonce c account_id nonceQ
  let nonce := nr.1
  let app_id := app_idQ.getD 0
  let tip := tipQ.getD 0
  let genesis_hash := c.genesisHash
  let best_block_hash := c.bestBlockHash
  let best_block_number := c.headerNumber best_block_hash
  let mf := Client.resolveMortality mortalityQ best_block_number best_block_hash
  let extra : Extra := ⟨mf.1, nonce, tip, app_id⟩
  let additional : Additional :=
    ⟨c.specVersion, c.transactionVersion, genesis_hash, mf.2⟩
  (UnsignedPayload.encode call extra additional,
    nr.2 ++ [.chainSpecV1GenesisHash, .chainGetBlockHash,
      .chainGetHeader best_block_hash, .stateGetRuntimeVersion])

/-- The inner byte sequence assembled by `Client::sign` before the length
is prepended: flag/version byte, address, signature, extra, call. -/
def Client.encodedInner (payload : UnsignedEncodedPayload) (address : Bytes)
    (signature : Bytes) : Bytes :=
  [128 + 4] ++ MultiAddress.encodeId (PublicKey.to_account_id address)
    ++ MultiSignature.encodeSr25519 signature ++ payload.extra ++ payload.call

/-- Translation of `Client::sign` (`http.rs` lines 110-142).  The `Chain`
argument mirrors `&self`; the body never touches it and issues no RPC, so
the trace component is empty.  `none` models the fatal `expect` on
`u32::try_from` when the inner length does not fit a `u32`. -/
def Client.sign (c : Chain) (payload : UnsignedEncodedPayload) (address : Bytes)
    (signature : Bytes) : Option Bytes × List Query :=
  let encoded_inner := Client.encodedInner payload address signature
  if encoded_inner.length < 4294967296 then
    (some (compactEncode encoded_inner.length ++ encoded_inner), [])
  else (none, [])

/-! ### Properties of the mortality normalization -/

theorem le_nextPow2 (n : Nat) : n ≤ nextPow2 n := by
  unfold nextPow2
  split
  · omega
  · have := lt_two_pow_bitLen (n - 1)
    omega

theorem nextPow2_le (n k : Nat) (h : n ≤ 2 ^ k) : nextPow2 n ≤ 2 ^ k := by
  unfold nextPow2
  split
  · exact Nat.one_le_two_pow
  · have h2 : 2 ≤ n := by omega
    have hub : 2 ^ bitLen (n - 1) ≤ 2 * (n - 1) := two_pow_bitLen_le (n - 1) (by omega)
    have hlt : 2 ^ bitLen (n - 1) < 2 ^ (k + 1) := by
      have : 2 ^ k ≥ n := h
      calc 2 ^ bitLen (n - 1) ≤ 2 * (n - 1) := hub
      _ < 2 * 2 ^ k := by omega
      _ = 2 ^ (k + 1) := (pow_succ' 2 k).symm
    have : bitLen (n - 1) < k + 1 := (Nat.pow_lt_pow_iff_right (by norm_num)).mp hlt
    exact Nat.pow_le_pow_right (by norm_num) (by omega)

theorem nextPow2_is_pow2 (n : Nat) : ∃ k, nextPow2 n = 2 ^ k := by
  unfold nextPow2
  split
  · exact ⟨0, rfl⟩
  · exact ⟨bitLen (n - 1), rfl⟩

theorem mortalPeriod_is_pow2 (len : Nat) : ∃ k, mortalPeriod len = 2 ^ k := by
  obtain ⟨k, hk⟩ := nextPow2_is_pow2 (max len 4)
  by_cases h : nextPow2 (max len 4) ≤ 2 ^ 16
  · exact ⟨k, by rw [mortalPeriod, min_eq_right h, hk]⟩
  · exact ⟨16, by rw [mortalPeriod, min_eq_left (by omega)]⟩

theorem mortalPeriod_le (len : Nat) : mortalPeriod len ≤ 2 ^ 16 :=
  min_le_left _ _

theorem mortalPeriod_eq_of_le (len : Nat) (h : max len 4 ≤ 2 ^ 16) :
    mortalPeriod len = nextPow2 (max len 4) :=
  min_eq_right (nextPow2_le _ 16 h)

theorem mortalPeriod_clamp (len : Nat) (h : 2 ^ 16 < max len 4) :
    mortalPeriod len = 2 ^ 16 :=
  min_eq_left (le_trans (by omega) (le_nextPow2 (max len 4)))


/-! ### Concrete fixtures used by the witnesses -/

/-- A concrete chain oracle for evaluating the client on closed inputs. -/
def testChain : Chain :=
  ⟨[17], [18], [34], fun _ => 1000, fun _ => 41, fun _ _ => 42, 5, 2⟩

/-- A concrete encoded payload for evaluating `Client.sign` on closed inputs. -/
def testPayload : UnsignedEncodedPayload := ⟨[171], [204], [221]⟩

/-! ### The claims -/

/-- C5: for every requested mortality length, the resolved period is the
smallest power of two at least `max(length, 4)` and at most `2 ^ 16`, the
phase is the anchor height modulo the period, length 10 resolves to 16,
lengths 0 and 1 resolve to 4, and a length rounding past the maximum
period is clamped to `2 ^ 16` rather than failing. -/
theorem mortal_normalization (len height : Nat) :
    (CheckedMortality.mortal len height).phase
        = height % (CheckedMortality.mortal len height).period ∧
    (∃ k, (CheckedMortality.mortal len height).period = 2 ^ k) ∧
    (CheckedMortality.mortal len height).period ≤ 2 ^ 16 ∧
    (max len 4 ≤ 2 ^ 16 →
      max len 4 ≤ (CheckedMortality.mortal len height).period ∧
      ∀ k, max len 4 ≤ 2 ^ k → (CheckedMortality.mortal len height).period ≤ 2 ^ k) ∧
    (2 ^ 16 < max len 4 → (CheckedMortality.mortal len height).period = 2 ^ 16) ∧
    (CheckedMortality.mortal 10 height).period = 16 ∧
    (CheckedMortality.mortal 0 height).period = 4 ∧
    (CheckedMortality.mortal 1 height).period = 4 := by
  refine ⟨rfl, mortalPeriod_is_pow2 len, mortalPeriod_le len, ?_, ?_, ?_, ?_, ?_⟩
  · intro h
    rw [CheckedMortality.mortal]
    dsimp only
    rw [mortalPeriod_eq_of_le len h]
    exact ⟨le_nextPow2 _, fun k hk => nextPow2_le _ k hk⟩
  · intro h
    rw [CheckedMortality.mortal]
    dsimp only
    exact mortalPeriod_clamp len h
  · exact (by decide : mortalPeriod 10 = 16)
  · exact (by decide : mortalPeriod 0 = 4)
  · exact (by decide : mortalPeriod 1 = 4)

/-- C5 witness: the theorem applied at length 10 and height 1000, with the
minimality clause discharged at the concrete power 16. -/
theorem mortal_normalization_witness :
    (CheckedMortality.mortal 10 1000).phase
        = 1000 % (CheckedMortality.mortal 10 1000).period ∧
    (CheckedMortality.mortal 10 1000).period ≤ 2 ^ 4 := by
  have h := mortal_normalization 10 1000
  exact ⟨h.1, (h.2.2.2.1 (by decide)).2 4 (by decide)⟩

/-- C1: for every chain state, call, account and extra request, the unsigned
payload produced by `build_payload` encodes, in this exact order: the call
bytes, then the extra (mortality, then nonce, tip and app id as compact
integers), then the additional material (spec version and transaction
version as fixed-width words, then the genesis hash and the fork/anchor
hash as raw bytes). -/
theorem build_payload_layout (c : Chain) (call account_id : Bytes)
    (ee : ExtrinsicExtra) :
    ((Client.build_payload c call account_id ee).1).full =
      call
        ++ ((Client.resolveMortality ee.mortality (c.headerNumber c.bestBlockHash)
              c.bestBlockHash).1.encode
            ++ compactEncode (Client.resolveNonce c account_id ee.nonce).1
            ++ compactEncode (ee.tip.getD 0)
            ++ compactEncode (ee.app_id.getD 0))
        ++ (leBytes 4 c.specVersion ++ leBytes 4 c.transactionVersion
            ++ c.genesisHash
            ++ (Client.resolveMortality ee.mortality (c.headerNumber c.bestBlockHash)
                  c.bestBlockHash).2) := by
  simp [Client.build_payload, ExtrinsicExtra.deconstruct, UnsignedPayload.encode,
    UnsignedEncodedPayload.full, Extra.encode, Additional.encode]

/-- C1 witness: the layout evaluated on the concrete fixture chain with an
explicit nonce of 3 and a mortality period of 16 anchored at height 1000. -/
theorem build_payload_layout_witness :
    ((Client.build_payload testChain [171] [9]
        ⟨some (.Custom 3), some (.Period 16), none, none⟩).1).full =
      [171] ++ ([131, 0] ++ [12] ++ [0] ++ [0])
        ++ ([5, 0, 0, 0] ++ [2, 0, 0, 0] ++ [34] ++ [17]) := by
  have h := build_payload_layout testChain [171] [9]
    ⟨some (.Custom 3), some (.Period 16), none, none⟩
  rw [h]
  decide

/-- C2: whenever `sign` succeeds, the wire bytes are a compact length
covering everything after it, then the flag/version byte `0b1000_0000 + 4`,
then the address as `MultiAddress::Id` of the account id derived from the
public key, then the signature as `MultiSignature::Sr25519`, then the
payload's extra bytes, then the call bytes unchanged. -/
theorem sign_wire_format (c : Chain) (p : UnsignedEncodedPayload)
    (address sig out : Bytes)
    (h : (Client.sign c p address sig).1 = some out) :
    out = compactEncode (Client.encodedInner p address sig).length
        ++ ([128 + 4] ++ MultiAddress.encodeId (PublicKey.to_account_id address)
            ++ MultiSignature.encodeSr25519 sig ++ p.extra ++ p.call) := by
  rw [Client.sign] at h
  by_cases hl : (Client.encodedInner p address sig).length < 4294967296
  · rw [if_pos hl] at h
    simp only [Option.some.injEq] at h
    rw [← h, Client.encodedInner]
  · rw [if_neg hl] at h
    exact absurd h (by simp)

/-- C2 witness: the wire format evaluated on the concrete fixture payload. -/
theorem sign_wire_format_witness :
    ([36, 132, 0, 7, 7, 1, 8, 8, 204, 171] : Bytes)
      = compactEncode (Client.encodedInner testPayload [7, 7] [8, 8]).length
        ++ ([128 + 4] ++ MultiAddress.encodeId (PublicKey.to_account_id [7, 7])
            ++ MultiSignature.encodeSr25519 [8, 8] ++ testPayload.extra
            ++ testPayload.call) :=
  sign_wire_format testChain testPayload [7, 7] [8, 8]
    [36, 132, 0, 7, 7, 1, 8, 8, 204, 171] (by decide)

/-- C3: the extra bytes embedded in the signed extrinsic are byte-identical
to the extra segment of the unsigned payload produced by `build_payload`
for the same resolved extra: the same `p.extra` byte list sits between the
signature and the call in the wire bytes, and between the call and the
additional material in the signing bytes. -/
theorem extra_round_trip (c : Chain) (call account_id : Bytes)
    (ee : ExtrinsicExtra) (address sig out : Bytes)
    (h : (Client.sign c (Client.build_payload c call account_id ee).1
            address sig).1 = some out) :
    ((Client.build_payload c call account_id ee).1).full
      = ((Client.build_payload c call account_id ee).1).call
        ++ ((Client.build_payload c call account_id ee).1).extra
        ++ ((Client.build_payload c call account_id ee).1).additional ∧
    out = compactEncode (Client.encodedInner
            (Client.build_payload c call account_id ee).1 address sig).length
        ++ [128 + 4] ++ MultiAddress.encodeId (PublicKey.to_account_id address)
        ++ MultiSignature.encodeSr25519 sig
        ++ ((Client.build_payload c call account_id ee).1).extra
        ++ ((Client.build_payload c call account_id ee).1).call := by
  refine ⟨rfl, ?_⟩
  rw [sign_wire_format c _ address sig out h]
  simp [List.append_assoc]

/-- C3 witness: the two occurrences of the extra segment evaluated on the
fixture chain with an explicit nonce and explicit mortality. -/
theorem extra_round_trip_witness :
    ((Client.build_payload testChain [171] [9]
        ⟨some (.Custom 3), some (.Period 16), none, none⟩).1).extra
      = [131, 0, 12, 0, 0] ∧
    ((Client.build_payload testChain [171] [9]
        ⟨some (.Custom 3), some (.Period 16), none, none⟩).1).full
      = ((Client.build_payload testChain [171] [9]
          ⟨some (.Custom 3), some (.Period 16), none, none⟩).1).call
        ++ [131, 0, 12, 0, 0]
        ++ ((Client.build_payload testChain [171] [9]
            ⟨some (.Custom 3), some (.Period 16), none, none⟩).1).additional := by
  have h := extra_round_trip testChain [171] [9]
    ⟨some (.Custom 3), some (.Period 16), none, none⟩ [7, 7] [8, 8]
    (compactEncode (Client.encodedInner
        (Client.build_payload testChain [171] [9]
          ⟨some (.Custom 3), some (.Period 16), none, none⟩).1 [7, 7] [8, 8]).length
      ++ Client.encodedInner
          (Client.build_payload testChain [171] [9]
            ⟨some (.Custom 3), some (.Period 16), none, none⟩).1 [7, 7] [8, 8])
    (by decide)
  exact ⟨by decide, h.1.trans (by decide)⟩

/-- C4: for every signed extrinsic produced by `sign`, decoding the compact
length prefix at the start of the buffer yields a value equal to the number
of remaining bytes, so reading that many bytes consumes exactly the rest of
the buffer with zero bytes left over. -/
theorem sign_length_correct (c : Chain) (p : UnsignedEncodedPayload)
    (address sig out : Bytes)
    (h : (Client.sign c p address sig).1 = some out) :
    ∃ v rest, compactDecode out = some (v, rest) ∧ rest.length = v := by
  rw [Client.sign] at h
  by_cases hl : (Client.encodedInner p address sig).length < 4294967296
  · rw [if_pos hl] at h
    simp only [Option.some.injEq] at h
    refine ⟨(Client.encodedInner p address sig).length,
      Client.encodedInner p address sig, ?_, rfl⟩
    rw [← h]
    exact compactDecode_compactEncode _ hl _
  · rw [if_neg hl] at h
    exact absurd h (by simp)

/-- C4 witness: the length prefix decoded on the concrete fixture output. -/
theorem sign_length_correct_witness :
    ∃ v rest,
      compactDecode [36, 132, 0, 7, 7, 1, 8, 8, 204, 171] = some (v, rest)
        ∧ rest.length = v :=
  sign_length_correct testChain testPayload [7, 7] [8, 8]
    [36, 132, 0, 7, 7, 1, 8, 8, 204, 171] (by decide)

/-- C6: with caller-supplied explicit mortality `(length, anchor height,
anchor hash)`, the build applies the same power-of-two normalization and
phase computation (`CheckedMortality.mortal`) to the caller-supplied
height, uses the caller-supplied hash as the fork/anchor hash, and the
mortality-resolution step contributes no chain call: the build's whole
trace consists of the nonce-resolution queries followed by the payload
assembler's genesis, best-hash, header and runtime-version queries. -/
theorem explicit_mortality (c : Chain) (call account_id : Bytes)
    (nonceQ : Option Nonce) (tipQ app_idQ : Option Nat)
    (len hgt : Nat) (hash : Bytes) :
    ((Client.build_payload c call account_id
        ⟨nonceQ, some (.Custom len hgt hash), tipQ, app_idQ⟩).1).extra
      = (CheckedMortality.mortal len hgt).encode
        ++ compactEncode (Client.resolveNonce c account_id nonceQ).1
        ++ compactEncode (tipQ.getD 0) ++ compactEncode (app_idQ.getD 0) ∧
    ((Client.build_payload c call account_id
        ⟨nonceQ, some (.Custom len hgt hash), tipQ, app_idQ⟩).1).additional
      = leBytes 4 c.specVersion ++ leBytes 4 c.transactionVersion
        ++ c.genesisHash ++ hash ∧
    (Client.build_payload c call account_id
        ⟨nonceQ, some (.Custom len hgt hash), tipQ, app_idQ⟩).2
      = (Client.resolveNonce c account_id nonceQ).2
        ++ [.chainSpecV1GenesisHash, .chainGetBlockHash,
            .chainGetHeader c.bestBlockHash, .stateGetRuntimeVersion] := by
  refine ⟨?_, ?_, ?_⟩ <;>
    simp [Client.build_payload, ExtrinsicExtra.deconstruct, Client.resolveMortality,
      UnsignedPayload.encode, Extra.encode, Additional.encode]

/-- C7: an explicit nonce is returned unchanged, with no validation on the
value and zero chain queries issued to resolve it; in particular
`Explicit(7)` resolves to 7, and a build with an explicit nonce issues only
the payload assembler's queries. -/
theorem explicit_nonce (c : Chain) (account_id : Bytes) (n : Nat) :
    Client.resolveNonce c account_id (some (.Custom n)) = (n, []) ∧
    Client.resolveNonce c account_id (some (.Custom 7)) = (7, []) ∧
    (Client.build_payload c [] account_id ⟨some (.Custom n), none, none, none⟩).2
      = [.chainSpecV1GenesisHash, .chainGetBlockHash,
         .chainGetHeader c.bestBlockHash, .stateGetRuntimeVersion] :=
  ⟨rfl, rfl, rfl⟩

/-- C8: under `UseFinalizedBlockOnly`, nonce resolution issues exactly one
get-finalized-hash query followed by exactly one on-chain account-nonce
read executed against that finalized block's hash, in that order, and
never consults the pending pool. -/
theorem finalized_nonce (c : Chain) (account_id : Bytes) :
    Client.resolveNonce c account_id (some .FinalizedBlock)
      = (c.accountNonceAt account_id c.finalizedBlockHash,
         [.chainGetFinalizedHead,
          .stateCallAccountNonce account_id c.finalizedBlockHash]) ∧
    Query.systemAccountNextIndex account_id
        ∉ (Client.resolveNonce c account_id (some .FinalizedBlock)).2 := by
  refine ⟨rfl, ?_⟩
  simp [Client.resolveNonce]

/-- C9: `sign` fails (fatally, modelled as `none`) if and only if the inner
byte length - flag byte, address, signature, extra and call - is at least
`2 ^ 32`, the first length not representable in the `u32` the length prefix
is built from; for every smaller inner length it succeeds and produces the
prefixed bytes. -/
theorem sign_overflow (c : Chain) (p : UnsignedEncodedPayload)
    (address sig : Bytes) :
    ((Client.sign c p address sig).1 = none ↔
      4294967296 ≤ (Client.encodedInner p address sig).length) ∧
    ((Client.encodedInner p address sig).length < 4294967296 →
      (Client.sign c p address sig).1
        = some (compactEncode (Client.encodedInner p address sig).length
            ++ Client.encodedInner p address sig)) := by
  rw [Client.sign]
  by_cases hl : (Client.encodedInner p address sig).length < 4294967296
  · rw [if_pos hl]
    exact ⟨by simp; omega, fun _ => rfl⟩
  · rw [if_neg hl]
    exact ⟨by simp; omega, fun h => absurd h hl⟩

/-- C9 witness: on the fixture payload the inner length is below the bound
and `sign` produces the prefixed bytes. -/
theorem sign_overflow_witness :
    (Client.sign testChain testPayload [7, 7] [8, 8]).1
      = some (compactEncode (Client.encodedInner testPayload [7, 7] [8, 8]).length
          ++ Client.encodedInner testPayload [7, 7] [8, 8]) :=
  (sign_overflow testChain testPayload [7, 7] [8, 8]).2 (by decide)

/-- C10: `sign` is a pure deterministic function of the payload's extra and
call bytes, the public key and the signature: it reads no chain state (any
two chain handles give identical output) and no part of the payload beyond
extra and call, and it issues no chain query (its trace is empty). -/
theorem sign_pure (c₁ c₂ : Chain) (p₁ p₂ : UnsignedEncodedPayload)
    (address sig : Bytes) (he : p₁.extra = p₂.extra) (hc : p₁.call = p₂.call) :
    Client.sign c₁ p₁ address sig = Client.sign c₂ p₂ address sig ∧
    (Client.sign c₁ p₁ address sig).2 = [] := by
  have hi : Client.encodedInner p₁ address sig = Client.encodedInner p₂ address sig := by
    rw [Client.encodedInner, Client.encodedInner, he, hc]
  constructor
  · rw [Client.sign, Client.sign, hi]
  · rw [Client.sign]
    split <;> rfl

/-- C10 witness: two payloads that agree on extra and call but differ in the
additional segment, under two different chain handles, sign to identical
wire bytes with an empty trace. -/
theorem sign_pure_witness :
    Client.sign testChain ⟨[171], [204], [9]⟩ [7, 7] [8, 8]
      = Client.sign ⟨[99], [98], [97], fun _ => 0, fun _ => 0, fun _ _ => 0, 1, 1⟩
          ⟨[171], [204], [10]⟩ [7, 7] [8, 8] ∧
    (Client.sign testChain ⟨[171], [204], [9]⟩ [7, 7] [8, 8]).2 = [] :=
  sign_pure testChain ⟨[99], [98], [97], fun _ => 0, fun _ => 0, fun _ _ => 0, 1, 1⟩
    ⟨[171], [204], [9]⟩ ⟨[171], [204], [10]⟩ [7, 7] [8, 8] rfl rfl

end Avail
